import Mathlib

/-!
Verification development for the deferred GPU shader-compilation subsystem of
`source/blender/draw/intern/draw_manager_shader.c`.

The development embeds, as executable Lean definitions:
* the shader include library (`DRWShaderLibrary` and its operations
  `drw_shader_library_search`, `drw_shader_dependencies_get`,
  `DRW_shader_library_add_file`, `DRW_shader_library_create_shader_string`),
  with C strings rendered as `List Char`;
* the status-level behaviour of the public compile entry points
  (`DRW_shader_from_material`, `DRW_shader_from_world`,
  `drw_deferred_shader_add`);
* the queue discipline of the deferred compiler
  (`BLI_addtail` / `BLI_poptail` on the pending queue, the conclude list and
  the `mat_compiling` slot) as a small-step transition system;
* the lock protocol between the worker loop
  (`drw_deferred_shader_compilation_exec`) and `DRW_deferred_shader_remove`
  (spin list lock plus compilation mutex) as an interleaving semantics;
* the per-session compiler instance management of `drw_deferred_shader_add`
  and `drw_deferred_shader_compilation_free` (context ownership transfer).
-/

namespace DrawManagerShader

/-! ## C string primitives used by the shader library -/

/-- Embedding of C `strstr`: the suffix of `hay` starting at the first
occurrence of `pat`, or `none` when `pat` does not occur in `hay`. -/
def strstrSuffix (pat : List Char) : List Char → Option (List Char)
  | [] => if pat = [] then some [] else none
  | c :: rest =>
    if pat.isPrefixOf (c :: rest) then some (c :: rest) else strstrSuffix pat rest

theorem strstrSuffix_spec {pat hay s : List Char} (h : strstrSuffix pat hay = some s) :
    s.length ≤ hay.length ∧ pat.isPrefixOf s = true := by
  induction hay with
  | nil =>
    by_cases hp : pat = ([] : List Char)
    · simp [strstrSuffix, hp] at h
      subst h
      simp [hp, List.isPrefixOf]
    · simp [strstrSuffix, hp] at h
  | cons c rest ih =>
    by_cases hp : pat.isPrefixOf (c :: rest) = true
    · simp [strstrSuffix, hp] at h
      subst h
      exact ⟨le_refl _, hp⟩
    · simp [strstrSuffix, hp] at h
      rcases ih h with ⟨h1, h2⟩
      exact ⟨Nat.le_succ_of_le h1, h2⟩

/-! ## Shader library data model

`#define MAX_LIB 64` (a 64 bit bitmap is used), `#define MAX_LIB_NAME 64`.
An empty slot is a `NULL` entry of `libs[]`; `libs_name[]` and `libs_deps[]`
are only ever read for occupied slots, so a slot is modelled as an optional
record of the three parallel array entries. -/

abbrev MAX_LIB : Nat := 64

abbrev MAX_LIB_NAME : Nat := 64

/-- One occupied registry slot: the source text `libs[i]`, the stored name
`libs_name[i]` and the direct dependency bitmask `libs_deps[i]`. -/
structure LibSlot where
  src : List Char
  name : List Char
  deps : Nat
deriving DecidableEq

/-- Embedding of `struct DRWShaderLibrary`. The slot array is read through
`getSlot`, which returns `none` (a `NULL` library pointer) outside the fixed
capacity, exactly as the 64-entry calloc'd array behaves. -/
structure DRWShaderLibrary where
  slots : List (Option LibSlot)
deriving DecidableEq

/-- Array access `lib->libs[i]` (plus name and deps for an occupied slot). -/
def getSlot (lib : DRWShaderLibrary) (i : Nat) : Option LibSlot :=
  if i < MAX_LIB then lib.slots.getD i none else none

theorem getSlot_lt {lib : DRWShaderLibrary} {i : Nat} {s : LibSlot}
    (h : getSlot lib i = some s) : i < MAX_LIB := by
  by_contra hi
  simp [getSlot, hi] at h

/-- Library with all 64 slots empty, as returned by
`DRW_shader_library_create` (a `calloc`). -/
def emptyLib : DRWShaderLibrary := ⟨List.replicate MAX_LIB none⟩

/-! ## `drw_shader_library_search` -/

/-- The loop body of `drw_shader_library_search`, starting at slot `i`:
scan upward, stop (returning not-found) at the first empty slot, and return
the first slot whose full stored name is a prefix of `name`
(`strncmp(lib->libs_name[i], name, strlen(lib->libs_name[i]))`). The first
argument is structural fuel; the loop runs at most `MAX_LIB` iterations, so
`MAX_LIB` fuel from index 0 reproduces the C loop exactly. -/
def searchFrom (lib : DRWShaderLibrary) (name : List Char) : Nat → Nat → Option Nat
  | 0, _ => none
  | fuel + 1, i =>
    if i < MAX_LIB then
      match getSlot lib i with
      | none => none
      | some s =>
        if s.name.isPrefixOf name then some i else searchFrom lib name fuel (i + 1)
    else none

/-- Embedding of `drw_shader_library_search` (the C function returns -1 for
not-found, modelled as `none`). -/
def drw_shader_library_search (lib : DRWShaderLibrary) (name : List Char) : Option Nat :=
  searchFrom lib name MAX_LIB 0

/-! ## `drw_shader_dependencies_get` -/

/-- The dependency directive scanned for by the library: `BLENDER_REQUIRE(`. -/
def pragmaStr : List Char := ("BLENDER_REQUIRE(").toList

/-- Log events emitted by the library (`CLOG_INFO` for a missing dependency,
`printf` for a full registry). -/
inductive LogEvent where
  | depMissing (nm : List Char)
  | registryFull (nm : List Char)
deriving DecidableEq

/-- The scan loop of `drw_shader_dependencies_get` with structural fuel.
Every iteration consumes at least the directive's length from the remaining
text, so `hay.length` fuel always suffices; the fuel-exhausted value is never
reached on the actual argument. -/
def depsGetFuel (lib : DRWShaderLibrary) : Nat → List Char → Nat × List LogEvent
  | 0, _ => (0, [])
  | fuel + 1, hay =>
    match strstrSuffix pragmaStr hay with
    | none => (0, [])
    | some suf =>
      let rest := suf.drop pragmaStr.length
      match drw_shader_library_search lib rest with
      | some dep =>
        let r := depsGetFuel lib fuel rest
        (r.1 ||| (1 <<< dep), r.2)
      | none =>
        let nm := (rest.takeWhile (fun c => c ≠ ')')).take 62
        let r := depsGetFuel lib fuel (rest.drop nm.length)
        (r.1, LogEvent.depMissing nm :: r.2)

/-- Embedding of `drw_shader_dependencies_get`: scan `lib_code` for every
occurrence of the directive, resolve the name following it against the
registry, OR the found slot's bit into the result, and log unresolved names
(the debug name is the text up to `)` capped at `sizeof(dbg_name) - 2 = 62`
characters, and the scan pointer advances past it). Returns the bitmask and
the emitted log. -/
def drw_shader_dependencies_get (lib : DRWShaderLibrary) (hay : List Char) :
    Nat × List LogEvent :=
  depsGetFuel lib hay.length hay

/-! ## `DRW_shader_library_add_file` -/

/-- Scan for the first `NULL` entry of `libs[]` from index `i` upward (with
structural fuel; `MAX_LIB` fuel from index 0 reproduces the C loop). -/
def firstFreeFrom (lib : DRWShaderLibrary) : Nat → Nat → Option Nat
  | 0, _ => none
  | fuel + 1, i =>
    if i < MAX_LIB then
      match getSlot lib i with
      | none => some i
      | some _ => firstFreeFrom lib fuel (i + 1)
    else none

/-- First free slot index (the `index` scan of `DRW_shader_library_add_file`). -/
def firstFree (lib : DRWShaderLibrary) : Option Nat :=
  firstFreeFrom lib MAX_LIB 0

/-- Embedding of `DRW_shader_library_add_file`. The source pointer and the
name (truncated by `BLI_strncpy` to `MAX_LIB_NAME - 1` characters) are stored
first, and only then is the dependency bitmask computed — so the new slot
itself is already visible to its own dependency resolution, as in the C code.
On a full registry the error is logged and the library is left unchanged
(`BLI_assert` is a debug-only check, a no-op in release builds). -/
def DRW_shader_library_add_file (lib : DRWShaderLibrary) (lib_code lib_name : List Char) :
    DRWShaderLibrary × List LogEvent :=
  match firstFree lib with
  | some i =>
    let stored := lib_name.take (MAX_LIB_NAME - 1)
    let lib1 : DRWShaderLibrary := ⟨lib.slots.set i (some ⟨lib_code, stored, 0⟩)⟩
    let r := drw_shader_dependencies_get lib1 lib_code
    (⟨lib1.slots.set i (some ⟨lib_code, stored, r.1⟩)⟩, r.2)
  | none => (lib, [LogEvent.registryFull lib_name])

/-! ## `DRW_shader_library_create_shader_string` -/

/-- One iteration of the backward transitive-closure loop at slot `i`:
`if (lib->libs[i] && (deps & (1llu << i))) deps |= lib->libs_deps[i];`. -/
def depStep (lib : DRWShaderLibrary) (i : Nat) (deps : Nat) : Nat :=
  match getSlot lib i with
  | some s => if deps.testBit i then deps ||| s.deps else deps
  | none => deps

/-- The backward pass over slots `n-1, n-2, ..., 0`. -/
def passFrom (lib : DRWShaderLibrary) : Nat → Nat → Nat
  | 0, deps => deps
  | n + 1, deps => passFrom lib n (depStep lib n deps)

/-- The full backward pass (`for (int i = MAX_LIB - 1; i > -1; i--)`). -/
def transitiveDeps (lib : DRWShaderLibrary) (deps : Nat) : Nat :=
  passFrom lib MAX_LIB deps

/-- Source text of slot `i`; an empty slot contributes nothing (the C code
never reaches an empty slot here because dependency bits only ever point at
occupied slots). -/
def srcOf (lib : DRWShaderLibrary) (i : Nat) : List Char :=
  match getSlot lib i with
  | some s => s.src
  | none => []

/-- The concatenation loop
`for (i = 0; i < MAX_LIB && deps != 0; i++, deps >>= 1) if (deps & 1) append`
(with structural fuel; `MAX_LIB` fuel from index 0 reproduces the C loop). -/
def concatFrom (lib : DRWShaderLibrary) : Nat → Nat → Nat → List Char
  | 0, _, _ => []
  | fuel + 1, i, deps =>
    if i < MAX_LIB ∧ deps ≠ 0 then
      (if deps % 2 = 1 then srcOf lib i else []) ++ concatFrom lib fuel (i + 1) (deps / 2)
    else []

/-- Embedding of `DRW_shader_library_create_shader_string`: compute the direct
dependency bitmask of `shader_code`, close it transitively with one backward
pass, concatenate every set bit's source in ascending slot order, and append
`shader_code` last. -/
def DRW_shader_library_create_shader_string (lib : DRWShaderLibrary)
    (shader_code : List Char) : List Char :=
  let deps := (drw_shader_dependencies_get lib shader_code).1
  concatFrom lib MAX_LIB 0 (transitiveDeps lib deps) ++ shader_code

/-! ## Characterization of `drw_shader_library_search` -/

/-- Slot `i` matches the directive text `name`: it is occupied and its full
stored name is a prefix of `name` (the `strncmp` with `strlen(libs_name[i])`
characters). -/
def slotMatches (lib : DRWShaderLibrary) (i : Nat) (name : List Char) : Prop :=
  ∃ s, getSlot lib i = some s ∧ s.name.isPrefixOf name = true

instance (lib : DRWShaderLibrary) (i : Nat) (name : List Char) :
    Decidable (slotMatches lib i name) := by
  unfold slotMatches
  cases getSlot lib i with
  | none => exact .isFalse (by simp)
  | some s => exact decidable_of_iff (s.name.isPrefixOf name = true) (by simp)

theorem searchFrom_eq_some_iff (lib : DRWShaderLibrary) (name : List Char) :
    ∀ n k, MAX_LIB - k ≤ n → ∀ i,
      (searchFrom lib name n k = some i ↔
        k ≤ i ∧ i < MAX_LIB ∧ slotMatches lib i name ∧
          ∀ j, k ≤ j → j < i → getSlot lib j ≠ none ∧ ¬ slotMatches lib j name) := by
  intro n
  induction n with
  | zero =>
    intro k hk i
    constructor
    · intro h; exact absurd h (by simp [searchFrom])
    · rintro ⟨h1, h2, _⟩; omega
  | succ n ih =>
    intro k hk i
    by_cases hlt : k < MAX_LIB
    · rw [searchFrom, if_pos hlt]
      cases hs : getSlot lib k with
      | none =>
        constructor
        · intro h; exact absurd h (by simp)
        · rintro ⟨h1, h2, hm, hall⟩
          rcases Nat.eq_or_lt_of_le h1 with rfl | hki
          · rcases hm with ⟨s, hs2, _⟩; rw [hs] at hs2; exact absurd hs2 (by simp)
          · exact absurd hs ((hall k (le_refl k) hki).1)
      | some s =>
        dsimp only
        by_cases hm : s.name.isPrefixOf name = true
        · rw [if_pos hm]
          constructor
          · intro h
            have hik : k = i := by simpa using h
            subst hik
            exact ⟨le_refl _, hlt, ⟨s, hs, hm⟩,
              fun j h1 h2 => absurd (lt_of_le_of_lt h1 h2) (lt_irrefl _)⟩
          · rintro ⟨h1, h2, hmi, hall⟩
            rcases Nat.eq_or_lt_of_le h1 with rfl | hki
            · rfl
            · exact absurd ⟨s, hs, hm⟩ ((hall k (le_refl k) hki).2)
        · rw [if_neg hm]
          rw [ih (k + 1) (by omega) i]
          constructor
          · rintro ⟨h1, h2, hmi, hall⟩
            refine ⟨by omega, h2, hmi, fun j hj1 hj2 => ?_⟩
            rcases Nat.eq_or_lt_of_le hj1 with rfl | hkj
            · refine ⟨by simp [hs], ?_⟩
              rintro ⟨s2, hs2, hp2⟩
              rw [hs] at hs2
              cases hs2
              exact hm hp2
            · exact hall j hkj hj2
          · rintro ⟨h1, h2, hmi, hall⟩
            have hki : k < i := by
              rcases Nat.eq_or_lt_of_le h1 with rfl | hki
              · rcases hmi with ⟨s2, hs2, hp2⟩
                rw [hs] at hs2
                cases hs2
                exact absurd hp2 hm
              · exact hki
            exact ⟨hki, h2, hmi, fun j hj1 hj2 => hall j (by omega) hj2⟩
    · rw [searchFrom, if_neg hlt]
      constructor
      · intro h; exact absurd h (by simp)
      · rintro ⟨h1, h2, _⟩; omega

/-- Full characterization of `drw_shader_library_search`: the result is the
lowest occupied slot, among those before the first empty slot, whose stored
name is a prefix of the queried text. -/
theorem search_eq_some_iff (lib : DRWShaderLibrary) (name : List Char) (i : Nat) :
    drw_shader_library_search lib name = some i ↔
      i < MAX_LIB ∧ slotMatches lib i name ∧
        ∀ j < i, getSlot lib j ≠ none ∧ ¬ slotMatches lib j name := by
  rw [drw_shader_library_search, searchFrom_eq_some_iff lib name MAX_LIB 0 (by omega) i]
  constructor
  · rintro ⟨_, h2, h3, h4⟩; exact ⟨h2, h3, fun j hj => h4 j (Nat.zero_le j) hj⟩
  · rintro ⟨h2, h3, h4⟩; exact ⟨Nat.zero_le i, h2, h3, fun j _ hj => h4 j hj⟩

theorem search_some_occupied {lib : DRWShaderLibrary} {name : List Char} {i : Nat}
    (h : drw_shader_library_search lib name = some i) : getSlot lib i ≠ none := by
  rcases (search_eq_some_iff lib name i).mp h with ⟨_, ⟨s, hs, _⟩, _⟩
  simp [hs]

/-! ## Bits of the direct-dependency mask point at occupied slots -/

theorem deps_mask_occupied (lib : DRWShaderLibrary) :
    ∀ fuel (hay : List Char) j,
      ((depsGetFuel lib fuel hay).1).testBit j = true → getSlot lib j ≠ none := by
  intro fuel
  induction fuel with
  | zero =>
    intro hay j hbit
    simp [depsGetFuel] at hbit
  | succ fuel ih =>
    intro hay j hbit
    rw [depsGetFuel] at hbit
    cases hh : strstrSuffix pragmaStr hay with
    | none => rw [hh] at hbit; simpa using hbit
    | some suf =>
      rw [hh] at hbit
      dsimp only at hbit
      cases hsearch : drw_shader_library_search lib (suf.drop pragmaStr.length) with
      | some dep =>
        rw [hsearch] at hbit
        dsimp only at hbit
        rw [Nat.testBit_or] at hbit
        cases hb1 : ((depsGetFuel lib fuel (suf.drop pragmaStr.length)).1).testBit j with
        | true => exact ih _ j hb1
        | false =>
          rw [hb1, Bool.false_or, Nat.one_shiftLeft] at hbit
          by_cases hdj : dep = j
          · subst hdj; exact search_some_occupied hsearch
          · rw [Nat.testBit_two_pow_of_ne hdj] at hbit; exact absurd hbit (by simp)
      | none =>
        rw [hsearch] at hbit
        dsimp only at hbit
        exact ih _ j hbit

theorem deps_mask_occupied' (lib : DRWShaderLibrary) (hay : List Char) (j : Nat)
    (h : ((drw_shader_dependencies_get lib hay).1).testBit j = true) :
    getSlot lib j ≠ none :=
  deps_mask_occupied lib hay.length hay j h

/-! ## C8 : full registry -/

theorem firstFreeFrom_eq_none (lib : DRWShaderLibrary)
    (h : ∀ i < MAX_LIB, getSlot lib i ≠ none) :
    ∀ n i, firstFreeFrom lib n i = none := by
  intro n
  induction n with
  | zero => intro i; rfl
  | succ n ih =>
    intro i
    rw [firstFreeFrom]
    by_cases hlt : i < MAX_LIB
    · rw [if_pos hlt]
      cases hs : getSlot lib i with
      | none => exact absurd hs (h i hlt)
      | some s => exact ih (i + 1)
    · rw [if_neg hlt]

/-- C8: calling `DRW_shader_library_add_file` on a library whose 64-slot
registry is already full logs the error (the `printf`; `BLI_assert` is
compiled out of release builds, so the program does not abort) and leaves the
registry unchanged. -/
theorem add_file_full_registry (lib : DRWShaderLibrary) (lib_code lib_name : List Char)
    (hfull : ∀ i < MAX_LIB, getSlot lib i ≠ none) :
    DRW_shader_library_add_file lib lib_code lib_name
      = (lib, [LogEvent.registryFull lib_name]) := by
  have hnone : firstFree lib = none :=
    firstFreeFrom_eq_none lib hfull MAX_LIB 0
  rw [DRW_shader_library_add_file, hnone]

/-- Library with all 64 slots occupied, used as the witness input for the
full-registry behaviour. -/
def fullLib : DRWShaderLibrary := ⟨List.replicate MAX_LIB (some ⟨[], [], 0⟩)⟩

theorem add_file_full_registry_witness :
    DRW_shader_library_add_file fullLib (("float x;").toList) (("X").toList)
      = (fullLib, [LogEvent.registryFull (("X").toList)]) :=
  add_file_full_registry fullLib (("float x;").toList) (("X").toList) (by decide)

/-! ## Transitive closure of the dependency bitmask -/

theorem occupied_lt {lib : DRWShaderLibrary} {i : Nat} (h : getSlot lib i ≠ none) :
    i < MAX_LIB := by
  by_contra hi
  exact h (by simp [getSlot, hi])

theorem testBit_lt_of_lt_pow {x i k : Nat} (hx : x < 2 ^ i) (hk : x.testBit k = true) :
    k < i := by
  by_contra h
  have hx2 : x < 2 ^ k := lt_of_lt_of_le hx (Nat.pow_le_pow_right (by norm_num) (by omega))
  rw [Nat.testBit_eq_false_of_lt hx2] at hk
  exact absurd hk (by simp)

/-- Registration discipline at one slot: the stored dependency bitmask only
has bits strictly below the slot's own index, and each such bit points at an
occupied slot. -/
def goodSlot (lib : DRWShaderLibrary) (i : Nat) : Prop :=
  ∀ s, getSlot lib i = some s →
    s.deps < 2 ^ i ∧ ∀ j < i, s.deps.testBit j = true → getSlot lib j ≠ none

/-- Executable check for `goodSlot`. -/
def goodSlotB (lib : DRWShaderLibrary) (i : Nat) : Bool :=
  match getSlot lib i with
  | none => true
  | some s =>
    decide (s.deps < 2 ^ i) &&
      (List.range i).all fun j => !s.deps.testBit j || decide (getSlot lib j ≠ none)

theorem goodSlotB_iff (lib : DRWShaderLibrary) (i : Nat) :
    goodSlotB lib i = true ↔ goodSlot lib i := by
  unfold goodSlotB goodSlot
  cases h : getSlot lib i with
  | none =>
    constructor
    · intro _ s hs
      exact absurd hs (by simp)
    · intro _
      rfl
  | some s =>
    dsimp only
    rw [Bool.and_eq_true, List.all_eq_true]
    constructor
    · rintro ⟨h1, h2⟩ s2 hs2
      obtain rfl := Option.some_inj.mp hs2
      refine ⟨of_decide_eq_true h1, fun j hj hb => ?_⟩
      have hthis := h2 j (List.mem_range.mpr hj)
      rw [hb] at hthis
      simpa using hthis
    · intro hall
      rcases hall s rfl with ⟨h1, h2⟩
      refine ⟨decide_eq_true h1, fun j hj => ?_⟩
      rw [List.mem_range] at hj
      cases hb : s.deps.testBit j with
      | false => simp [hb]
      | true => simp [hb, h2 j hj hb]

instance (lib : DRWShaderLibrary) (i : Nat) : Decidable (goodSlot lib i) :=
  decidable_of_iff _ (goodSlotB_iff lib i)

/-- Registration discipline for the whole library: what a sequence of
`DRW_shader_library_add_file` calls in which every fragment's dependencies
are registered before the fragment itself guarantees. -/
def goodLib (lib : DRWShaderLibrary) : Prop :=
  ∀ i < MAX_LIB, goodSlot lib i

instance (lib : DRWShaderLibrary) : Decidable (goodLib lib) :=
  Nat.decidableBallLT MAX_LIB fun i _ => goodSlot lib i

theorem goodLib_elim {lib : DRWShaderLibrary} (hg : goodLib lib) {i : Nat} {s : LibSlot}
    (hs : getSlot lib i = some s) :
    s.deps < 2 ^ i ∧ ∀ j < i, s.deps.testBit j = true → getSlot lib j ≠ none :=
  hg i (getSlot_lt hs) s hs

/-- Reference transitive-closure definition: slot `j` is required by a shader
whose direct dependency bitmask is `d` iff `j` is a direct dependency or a
stored dependency of some required occupied slot. -/
inductive TransDep (lib : DRWShaderLibrary) (d : Nat) : Nat → Prop where
  | direct {i : Nat} : d.testBit i = true → TransDep lib d i
  | trans {i j : Nat} {s : LibSlot} : TransDep lib d i → getSlot lib i = some s →
      s.deps.testBit j = true → TransDep lib d j

theorem depStep_cases (lib : DRWShaderLibrary) (n d : Nat) :
    depStep lib n d = d ∨
      ∃ s, getSlot lib n = some s ∧ d.testBit n = true ∧
        depStep lib n d = d ||| s.deps := by
  unfold depStep
  cases hs : getSlot lib n with
  | none => exact Or.inl rfl
  | some s =>
    dsimp only
    by_cases hb : d.testBit n
    · exact Or.inr ⟨s, rfl, hb, by rw [if_pos hb]⟩
    · exact Or.inl (by rw [if_neg hb])

theorem passFrom_succ (lib : DRWShaderLibrary) (n d : Nat) :
    passFrom lib (n + 1) d = passFrom lib n (depStep lib n d) := rfl

theorem passFrom_mono (lib : DRWShaderLibrary) :
    ∀ n d j, d.testBit j = true → (passFrom lib n d).testBit j = true := by
  intro n
  induction n with
  | zero => intro d j h; exact h
  | succ n ih =>
    intro d j h
    rw [passFrom_succ]
    apply ih
    rcases depStep_cases lib n d with he | ⟨s, _, _, he⟩ <;> rw [he]
    · exact h
    · rw [Nat.testBit_or, h]; rfl

theorem passFrom_stable (lib : DRWShaderLibrary) (hg : goodLib lib) :
    ∀ n d j, n ≤ j → (passFrom lib n d).testBit j = d.testBit j := by
  intro n
  induction n with
  | zero => intro d j _; rfl
  | succ n ih =>
    intro d j hj
    rw [passFrom_succ, ih (depStep lib n d) j (by omega)]
    rcases depStep_cases lib n d with he | ⟨s, hs, _, he⟩
    · rw [he]
    · rw [he, Nat.testBit_or]
      have hd : s.deps.testBit j = false := by
        cases hcase : s.deps.testBit j with
        | false => rfl
        | true =>
          have := testBit_lt_of_lt_pow (goodLib_elim hg hs).1 hcase
          omega
      rw [hd, Bool.or_false]

theorem passFrom_closed (lib : DRWShaderLibrary) (hg : goodLib lib) :
    ∀ n d i s, i < n → getSlot lib i = some s →
      (passFrom lib n d).testBit i = true →
      ∀ j, s.deps.testBit j = true → (passFrom lib n d).testBit j = true := by
  intro n
  induction n with
  | zero => intro d i s hi; exact absurd hi (Nat.not_lt_zero i)
  | succ n ih =>
    intro d i s hi hs hbit j hj
    rw [passFrom_succ] at hbit ⊢
    rcases Nat.lt_succ_iff_lt_or_eq.mp hi with hlt | rfl
    · exact ih (depStep lib n d) i s hlt hs hbit j hj
    · have hbit2 : (depStep lib i d).testBit i = true := by
        rw [passFrom_stable lib hg i (depStep lib i d) i (le_refl i)] at hbit
        exact hbit
      have hdi : d.testBit i = true := by
        rcases depStep_cases lib i d with he | ⟨s2, _, hb2, _⟩
        · rw [he] at hbit2; exact hbit2
        · exact hb2
      have hstep : depStep lib i d = d ||| s.deps := by
        unfold depStep
        rw [hs]
        dsimp only
        rw [if_pos hdi]
      apply passFrom_mono
      rw [hstep, Nat.testBit_or, hj]
      simp

theorem passFrom_sound (lib : DRWShaderLibrary) (P : Nat → Prop)
    (hP : ∀ i s j, P i → getSlot lib i = some s → s.deps.testBit j = true → P j) :
    ∀ n d, (∀ j, d.testBit j = true → P j) →
      ∀ j, (passFrom lib n d).testBit j = true → P j := by
  intro n
  induction n with
  | zero => intro d hd j hj; exact hd j hj
  | succ n ih =>
    intro d hd j hj
    rw [passFrom_succ] at hj
    refine ih (depStep lib n d) ?_ j hj
    intro k hk
    rcases depStep_cases lib n d with he | ⟨s, hs, hb, he⟩
    · rw [he] at hk; exact hd k hk
    · rw [he, Nat.testBit_or] at hk
      cases h1 : d.testBit k with
      | true => exact hd k h1
      | false =>
        rw [h1] at hk
        simp only [Bool.false_or] at hk
        exact hP n s k (hd n hb) hs hk

theorem transitiveDeps_iff (lib : DRWShaderLibrary) (hg : goodLib lib) (d : Nat) (j : Nat) :
    (transitiveDeps lib d).testBit j = true ↔ TransDep lib d j := by
  constructor
  · exact passFrom_sound lib (TransDep lib d)
      (fun i s k hi hs hk => TransDep.trans hi hs hk) MAX_LIB d
      (fun k hk => TransDep.direct hk) j
  · intro h
    induction h with
    | direct hb => exact passFrom_mono lib MAX_LIB d _ hb
    | trans hi hs hk ih =>
      exact passFrom_closed lib hg MAX_LIB d _ _ (getSlot_lt hs) hs ih _ hk

theorem transDep_occupied (lib : DRWShaderLibrary) (hg : goodLib lib) {d : Nat}
    (hd : ∀ j, d.testBit j = true → getSlot lib j ≠ none) :
    ∀ j, TransDep lib d j → getSlot lib j ≠ none := by
  intro j h
  induction h with
  | direct hb => exact hd _ hb
  | trans hi hs hk _ =>
    rcases goodLib_elim hg hs with ⟨hlt2, hocc⟩
    exact hocc _ (testBit_lt_of_lt_pow hlt2 hk) hk

/-! ## The concatenation loop produces ascending-order sources -/

theorem testBit_succ_div2 (x n : Nat) : x.testBit (n + 1) = (x / 2).testBit n := by
  simpa using Nat.testBit_succ x n

theorem concatFrom_spec (lib : DRWShaderLibrary) :
    ∀ r i deps, MAX_LIB - i = r →
      concatFrom lib r i deps =
        (((List.range r).filter fun k => deps.testBit k).map
          fun k => srcOf lib (i + k)).flatten := by
  intro r
  induction r with
  | zero =>
    intro i deps hr
    simp [concatFrom]
  | succ r ih =>
    intro i deps hr
    have hi : i < MAX_LIB := by omega
    rw [concatFrom]
    by_cases hd : deps = 0
    · subst hd
      rw [if_neg (by rintro ⟨_, h⟩; exact h rfl)]
      simp
    · rw [if_pos ⟨hi, hd⟩, ih (i + 1) (deps / 2) (by omega), List.range_succ_eq_map,
        List.filter_cons]
      have hmap : ((List.range r).map Nat.succ).filter (fun k => deps.testBit k) =
          ((List.range r).filter fun k => (deps / 2).testBit k).map Nat.succ := by
        rw [List.filter_map]
        congr 1
        apply List.filter_congr
        intro k _
        simp [Function.comp, testBit_succ_div2]
      rw [hmap]
      have hmaps : List.map (fun k => srcOf lib (i + k))
            (List.map Nat.succ ((List.range r).filter fun k => (deps / 2).testBit k)) =
          List.map (fun k => srcOf lib (i + 1 + k))
            ((List.range r).filter fun k => (deps / 2).testBit k) := by
        rw [List.map_map]
        apply List.map_congr_left
        intro k _
        simp only [Function.comp_apply]
        congr 1
        omega
      by_cases hb : deps % 2 = 1
      · have hb0 : deps.testBit 0 = true := by simp [Nat.testBit_zero, hb]
        rw [if_pos hb]
        simp only [hb0, if_true, List.map_cons, List.flatten_cons, Nat.add_zero, hmaps]
      · have hb0 : deps.testBit 0 = false := by
          simp only [Nat.testBit_zero]
          simp
          omega
        rw [if_neg hb]
        simp only [hb0, Bool.false_eq_true, if_false, List.nil_append, hmaps]

theorem create_shader_string_eq (lib : DRWShaderLibrary) (code : List Char) :
    DRW_shader_library_create_shader_string lib code =
      (((List.range MAX_LIB).filter fun k =>
          (transitiveDeps lib (drw_shader_dependencies_get lib code).1).testBit k).map
        fun k => srcOf lib k).flatten ++ code := by
  rw [show DRW_shader_library_create_shader_string lib code =
      concatFrom lib MAX_LIB 0
        (transitiveDeps lib (drw_shader_dependencies_get lib code).1) ++ code
    from rfl]
  rw [concatFrom_spec lib MAX_LIB 0 _ rfl]
  simp

/-! ## Concrete scenario libraries -/

def srcA : List Char := ("float A;").toList

def srcB : List Char := ("BLENDER_REQUIRE(A)" ++ "\nfloat B;").toList

def srcC : List Char := ("BLENDER_REQUIRE(B)" ++ "\nfloat C;").toList

def srcAB : List Char := ("float AB;").toList

def nameA : List Char := ("A").toList

def nameB : List Char := ("B").toList

def nameC : List Char := ("C").toList

def nameAB : List Char := ("AB").toList

/-- Registration of `B` (which requires the not-yet-registered `A`) into an
empty library. -/
def addBResult : DRWShaderLibrary × List LogEvent :=
  DRW_shader_library_add_file emptyLib srcB nameB

/-- The library after registering `B` first and `A` second (forward
reference: `B`'s dependency on `A` was unresolved at registration time). -/
def libBA : DRWShaderLibrary :=
  (DRW_shader_library_add_file addBResult.1 srcA nameA).1

def codeReqB : List Char := ("BLENDER_REQUIRE(B)" ++ "\nvoid main();").toList

/-- Library registering `A`, then `B` (requires `A`), then `C` (requires `B`),
respecting dependency order. -/
def libChain : DRWShaderLibrary :=
  (DRW_shader_library_add_file
    (DRW_shader_library_add_file
      (DRW_shader_library_add_file emptyLib srcA nameA).1 srcB nameB).1 srcC nameC).1

def codeReqC : List Char := ("BLENDER_REQUIRE(C)" ++ "\nvoid main();").toList

/-- Library with `A` registered before `AB`: the shorter name shadows the
longer one in prefix-based lookup. -/
def libShadow : DRWShaderLibrary :=
  (DRW_shader_library_add_file
    (DRW_shader_library_add_file emptyLib srcA nameA).1 srcAB nameAB).1

def codeReqAB : List Char := ("BLENDER_REQUIRE(AB)" ++ "\nvoid main();").toList

/-- Executable substring check, used to state that a missing dependency's
text does not appear in an expansion result. -/
def containsText (big small : List Char) : Bool :=
  (List.range (big.length + 1)).any fun k => (big.drop k).take small.length == small

/-! ## Claim theorems for the shader library -/

/-- C3: under the precondition that every registered fragment's direct
dependencies occupy strictly lower registration indices than the fragment
itself, the single backward pass over the slots (highest index to lowest,
OR-ing each set occupied fragment's stored bitmask into the accumulator)
computes exactly the transitive closure of the shader source's direct
dependency set: a bit is set in the result iff the slot is transitively
required in the reference inductive sense. -/
theorem backward_pass_computes_transitive_closure (lib : DRWShaderLibrary)
    (shader_code : List Char) (hg : goodLib lib) (j : Nat) :
    (transitiveDeps lib (drw_shader_dependencies_get lib shader_code).1).testBit j = true ↔
      TransDep lib (drw_shader_dependencies_get lib shader_code).1 j :=
  transitiveDeps_iff lib hg _ j

theorem backward_pass_computes_transitive_closure_witness :
    (transitiveDeps libChain
        (drw_shader_dependencies_get libChain codeReqC).1).testBit 0 = true ↔
      TransDep libChain (drw_shader_dependencies_get libChain codeReqC).1 0 :=
  backward_pass_computes_transitive_closure libChain codeReqC (by decide) 0

/-- C2: for every library built by register calls in which each fragment's
dependencies are registered before it, and every shader source, the expansion
is the concatenation of each transitively required fragment's source exactly
once (the index list is strictly sorted, hence duplicate-free and in
ascending registration order), with the caller's source appended last. -/
theorem create_shader_string_expansion (lib : DRWShaderLibrary) (code : List Char)
    (hg : goodLib lib) :
    ∃ L : List Nat, L.Sorted (· < ·) ∧
      (∀ i, i ∈ L ↔ TransDep lib (drw_shader_dependencies_get lib code).1 i) ∧
      DRW_shader_library_create_shader_string lib code =
        (L.map fun i => srcOf lib i).flatten ++ code := by
  refine ⟨(List.range MAX_LIB).filter fun k =>
      (transitiveDeps lib (drw_shader_dependencies_get lib code).1).testBit k, ?_, ?_, ?_⟩
  · exact (List.pairwise_lt_range MAX_LIB).filter _
  · intro i
    simp only [List.mem_filter, List.mem_range]
    constructor
    · rintro ⟨_, h2⟩
      exact (transitiveDeps_iff lib hg _ i).mp h2
    · intro h
      have hocc : getSlot lib i ≠ none :=
        transDep_occupied lib hg (deps_mask_occupied' lib code) i h
      exact ⟨occupied_lt hocc, (transitiveDeps_iff lib hg _ i).mpr h⟩
  · exact create_shader_string_eq lib code

theorem create_shader_string_expansion_witness :
    ∃ L : List Nat, L.Sorted (· < ·) ∧
      (∀ i, i ∈ L ↔ TransDep libChain (drw_shader_dependencies_get libChain codeReqC).1 i) ∧
      DRW_shader_library_create_shader_string libChain codeReqC =
        (L.map fun i => srcOf libChain i).flatten ++ codeReqC :=
  create_shader_string_expansion libChain codeReqC (by decide)

/-- C7: a dependency directive naming a not-yet-registered fragment is logged
by name and sets no dependency bit (every bit of a computed mask points at an
already occupied slot); consequently the missing fragment's text does not
appear in a later expansion, even after the fragment itself gets registered:
registering `B` (requiring the absent `A`) logs `A`, and expanding a shader
requiring `B` after `A` was belatedly registered yields exactly `B`'s source
plus the caller code, with `A`'s text absent. -/
theorem missing_dependency_graceful :
    (∀ (lib : DRWShaderLibrary) (hay : List Char) (j : Nat),
        ((drw_shader_dependencies_get lib hay).1).testBit j = true →
          getSlot lib j ≠ none) ∧
    addBResult.2 = [LogEvent.depMissing nameA] ∧
    DRW_shader_library_create_shader_string libBA codeReqB = srcB ++ codeReqB ∧
    containsText (DRW_shader_library_create_shader_string libBA codeReqB) srcA = false :=
  ⟨fun lib hay j h => deps_mask_occupied' lib hay j h, by decide, by decide, by decide⟩

theorem missing_dependency_graceful_witness : getSlot libBA 0 ≠ none :=
  missing_dependency_graceful.1 libBA codeReqB 0 (by decide)

/-- C10: dependency-name resolution is prefix-based: a directive resolves to
the lowest occupied slot, among those before the first empty slot, whose full
stored name is a prefix of the text following the directive; hence with `A`
registered before `AB`, a directive naming `AB` resolves to `A`'s slot and
the expansion pulls in `A`'s source instead of `AB`'s. -/
theorem search_prefix_resolution :
    (∀ (lib : DRWShaderLibrary) (name : List Char) (i : Nat),
        drw_shader_library_search lib name = some i ↔
          i < MAX_LIB ∧ slotMatches lib i name ∧
            ∀ j < i, getSlot lib j ≠ none ∧ ¬ slotMatches lib j name) ∧
    drw_shader_library_search libShadow (("AB)").toList) = some 0 ∧
    DRW_shader_library_create_shader_string libShadow codeReqAB = srcA ++ codeReqAB :=
  ⟨search_eq_some_iff, by decide, by decide⟩

/-! ## Public compile entry points (status-level model)

`DRW_shader_from_material` and `DRW_shader_from_world` manipulate one
observable per material: its `eGPUMaterialStatus`. The model follows the
control flow of the two functions statement by statement; the external
code generator (`GPU_material_from_nodetree`) is represented by the cached
status it returns, and the execution-mode query `DRW_state_is_image_render`,
the `evil_C` availability test and the GPU driver outcome are inputs. -/

/-- Status of a `GPUMaterial` (`eGPUMaterialStatus`). -/
inductive GPUMaterialStatus where
  | failed
  | created
  | queued
  | success
deriving DecidableEq, Fintype

/-- Modelled from the spec: the GPU backend's `compile(unit) -> success|error`
(`GPU_material_compile` lives outside the staged sources); it sets the unit's
status to success or error according to the driver outcome `ok`. -/
def GPU_material_compile (ok : Bool) (_st : GPUMaterialStatus) : GPUMaterialStatus :=
  if ok then .success else .failed

/-- Status-level embedding of `drw_deferred_shader_add`: when `evil_C` is
unavailable, the caller is rendering for an image, or `deferred` is false,
the material is compiled synchronously on the spot (after a defensive
`DRW_deferred_shader_remove`, which does not change the status); otherwise
the request is queued and the status is left as the caller set it
(`USE_DEFERRED_COMPILATION` is the constant 1). -/
def drw_deferred_shader_add (evil_C_null image_render ok : Bool)
    (st : GPUMaterialStatus) (deferred : Bool) : GPUMaterialStatus :=
  if evil_C_null = true ∨ image_render = true ∨ deferred = false then
    GPU_material_compile ok st
  else st

/-- Status-level embedding of `DRW_shader_from_world`: early return when not
image-rendering, deferred and already queued; a `created` material is marked
queued and submitted; a still-queued material is force-submitted when the
caller wants an immediate result. Note the `deferred` argument is NOT
overridden in image-render mode here. -/
def DRW_shader_from_world (evil_C_null image_render ok : Bool)
    (st : GPUMaterialStatus) (deferred : Bool) : GPUMaterialStatus :=
  if image_render = false ∧ deferred = true ∧ st = .queued then st
  else
    let st1 :=
      if st = .created then
        drw_deferred_shader_add evil_C_null image_render ok .queued deferred
      else st
    if deferred = false ∧ st1 = .queued then
      drw_deferred_shader_add evil_C_null image_render ok st1 false
    else st1

/-- Status-level embedding of `DRW_shader_from_material`: identical to the
world entry point except that image-render mode overrides `deferred` to
false before any status check. -/
def DRW_shader_from_material (evil_C_null image_render ok : Bool)
    (st : GPUMaterialStatus) (deferred0 : Bool) : GPUMaterialStatus :=
  let deferred := if image_render = true then false else deferred0
  if deferred = true ∧ st = .queued then st
  else
    let st1 :=
      if st = .created then
        drw_deferred_shader_add evil_C_null image_render ok .queued deferred
      else st
    if deferred = false ∧ st1 = .queued then
      drw_deferred_shader_add evil_C_null image_render ok st1 false
    else st1

/-- C4 counterexample: in image-render mode, with `deferred = true` and a
material that is already queued, `DRW_shader_from_world` returns with the
unit still `queued` — no synchronous compile happens, because the world entry
point lacks the `deferred = false` override that the material entry point
has, and its early-return check only skips when NOT image-rendering. -/
theorem shader_from_world_image_render_queued :
    DRW_shader_from_world false true true .queued true = .queued := by decide

/-- C4 amended: `DRW_shader_from_material` in image-render mode behaves as if
`deferred` were false regardless of the argument and always returns with
status success or error, never queued; `DRW_shader_from_world` in image-render
mode also returns success or error, except when the unit is already queued
and `deferred = true`, in which case it returns with the status still queued. -/
theorem image_render_compiles_synchronously :
    ∀ (evil_C_null ok deferred : Bool) (st : GPUMaterialStatus),
      (DRW_shader_from_material evil_C_null true ok st deferred = .success ∨
         DRW_shader_from_material evil_C_null true ok st deferred = .failed) ∧
      DRW_shader_from_material evil_C_null true ok st deferred =
        DRW_shader_from_material evil_C_null true ok st false ∧
      (DRW_shader_from_world evil_C_null true ok st deferred = .success ∨
         DRW_shader_from_world evil_C_null true ok st deferred = .failed ∨
         (st = .queued ∧ deferred = true ∧
           DRW_shader_from_world evil_C_null true ok st deferred = .queued)) := by
  decide

/-! ## Deferred compiler queue discipline (C5, C9)

The worker loop `drw_deferred_shader_compilation_exec`, the enqueue path of
`drw_deferred_shader_add` and the unlink path of `DRW_deferred_shader_remove`
move each `DRWDeferredShader` request between three holders: the pending
`queue`, the `queue_conclude` list and the `mat_compiling` slot. All moves
happen under the spin list lock, so they are modelled as atomic steps.
Requests are identified by allocation order (`MEM_callocN` returns a fresh
handle for every request). -/

/-- State of one `DRWShaderCompiler`: the pending `queue` (tail is the list's
last element), the `queue_conclude` list, the `mat_compiling` slot, and an
allocation counter giving every `DRWDeferredShader` a fresh identity. -/
structure DeferredState where
  queue : List Nat
  conclude : List Nat
  compiling : Option Nat
  nextId : Nat
deriving DecidableEq

/-- Freshly initialized compiler (`MEM_callocN` zeroes both lists). -/
def initialDeferred : DeferredState := ⟨[], [], none, 0⟩

/-- All live requests: pending queue, conclude list, and the
currently-compiling slot. -/
def liveReqs (s : DeferredState) : List Nat :=
  s.queue ++ s.conclude ++ s.compiling.toList

/-- One atomic step of the deferred compiler:
* `enqueue`: `BLI_addtail(&comp->queue, dsh)` with a fresh request;
* `pop`: `comp->mat_compiling = BLI_poptail(&comp->queue)` (worker idle);
* `finishConclude`: after the compile, status still `GPU_MAT_QUEUED`, so
  `BLI_addtail(&comp->queue_conclude, comp->mat_compiling)` and clear the slot;
* `finishDiscard`: otherwise `drw_deferred_shader_free` and clear the slot;
* `removeUnlink`: `BLI_remlink(&comp->queue, dsh)` + free, from
  `DRW_deferred_shader_remove`;
* `concludePop`: `BLI_poptail(&comp->queue_conclude)` + compile + free during
  `drw_deferred_shader_compilation_free`. -/
inductive DeferredStep : DeferredState → DeferredState → Prop where
  | enqueue (s : DeferredState) :
      DeferredStep s ⟨s.queue ++ [s.nextId], s.conclude, s.compiling, s.nextId + 1⟩
  | pop (s : DeferredState) (r : Nat) (q : List Nat) (hq : s.queue = q ++ [r])
      (hc : s.compiling = none) :
      DeferredStep s ⟨q, s.conclude, some r, s.nextId⟩
  | finishConclude (s : DeferredState) (r : Nat) (hc : s.compiling = some r) :
      DeferredStep s ⟨s.queue, s.conclude ++ [r], none, s.nextId⟩
  | finishDiscard (s : DeferredState) (r : Nat) (hc : s.compiling = some r) :
      DeferredStep s ⟨s.queue, s.conclude, none, s.nextId⟩
  | removeUnlink (s : DeferredState) (r : Nat) (hr : r ∈ s.queue) :
      DeferredStep s ⟨s.queue.erase r, s.conclude, s.compiling, s.nextId⟩
  | concludePop (s : DeferredState) (r : Nat) (l : List Nat) (hl : s.conclude = l ++ [r]) :
      DeferredStep s ⟨s.queue, l, s.compiling, s.nextId⟩

/-- Reachability from the freshly initialized compiler. -/
def DeferredReachable (s : DeferredState) : Prop :=
  Relation.ReflTransGen DeferredStep initialDeferred s

/-- Inductive invariant: live requests are pairwise distinct and below the
allocation counter. -/
def DeferredInv (s : DeferredState) : Prop :=
  (liveReqs s).Nodup ∧ ∀ r ∈ liveReqs s, r < s.nextId

theorem deferredInv_init : DeferredInv initialDeferred := by
  constructor
  · simp [liveReqs, initialDeferred]
  · intro r hr
    simp [liveReqs, initialDeferred] at hr

theorem deferredInv_step {s s' : DeferredState} (hinv : DeferredInv s)
    (hstep : DeferredStep s s') : DeferredInv s' := by
  rcases hinv with ⟨hnd, hlt⟩
  cases hstep with
  | enqueue =>
    have hfresh : s.nextId ∉ liveReqs s := fun hmem => lt_irrefl _ (hlt _ hmem)
    have hperm : List.Perm
        (liveReqs ⟨s.queue ++ [s.nextId], s.conclude, s.compiling, s.nextId + 1⟩)
        (s.nextId :: liveReqs s) := by
      simp only [liveReqs]
      have h1 : List.Perm ((s.queue ++ [s.nextId]) ++ s.conclude ++ s.compiling.toList)
          ((s.nextId :: s.queue) ++ s.conclude ++ s.compiling.toList) :=
        ((s.queue.perm_append_singleton s.nextId).append_right _).append_right _
      simpa using h1
    constructor
    · exact hperm.nodup_iff.mpr (List.nodup_cons.mpr ⟨hfresh, hnd⟩)
    · intro r hr
      rcases List.mem_cons.mp (hperm.mem_iff.mp hr) with rfl | hmem
      · simp
      · exact lt_trans (hlt _ hmem) (by simp)
  | pop r q hq hc =>
    have hperm : List.Perm (liveReqs ⟨q, s.conclude, some r, s.nextId⟩)
        (liveReqs s) := by
      simp only [liveReqs, hq, hc, Option.toList, List.append_nil]
      have h1 : List.Perm (q ++ (s.conclude ++ [r]))
          (q ++ ([r] ++ s.conclude)) :=
        (s.conclude.perm_append_singleton r).append_left q
      have h2 : List.Perm (q ++ s.conclude ++ [r]) (q ++ [r] ++ s.conclude) := by
        simpa [List.append_assoc] using h1
      exact h2
    constructor
    · exact hperm.nodup_iff.mpr hnd
    · intro x hx
      exact hlt x (hperm.mem_iff.mp hx)
  | finishConclude r hc =>
    have heq : liveReqs ⟨s.queue, s.conclude ++ [r], none, s.nextId⟩
        = liveReqs s := by
      simp [liveReqs, hc, Option.toList, List.append_assoc]
    constructor
    · rw [heq]; exact hnd
    · intro x hx
      rw [heq] at hx
      exact hlt x hx
  | finishDiscard r hc =>
    have hsub : List.Sublist (liveReqs ⟨s.queue, s.conclude, none, s.nextId⟩)
        (liveReqs s) := by
      simp only [liveReqs, Option.toList, List.append_assoc]
      exact (List.append_sublist_append_left s.queue).mpr
        ((List.append_sublist_append_left s.conclude).mpr (List.nil_sublist _))
    constructor
    · exact hnd.sublist hsub
    · intro x hx
      exact hlt x (hsub.mem hx)
  | removeUnlink r hr =>
    have hsub : List.Sublist
        (liveReqs ⟨s.queue.erase r, s.conclude, s.compiling, s.nextId⟩)
        (liveReqs s) := by
      simp only [liveReqs]
      exact ((s.queue.erase_sublist r).append_right _).append_right _
    constructor
    · exact hnd.sublist hsub
    · intro x hx
      exact hlt x (hsub.mem hx)
  | concludePop r l hl =>
    have hsub : List.Sublist (liveReqs ⟨s.queue, l, s.compiling, s.nextId⟩)
        (liveReqs s) := by
      simp only [liveReqs, hl, List.append_assoc]
      exact (List.append_sublist_append_left s.queue).mpr
        ((List.append_sublist_append_left l).mpr (List.sublist_cons_self r _))
    constructor
    · exact hnd.sublist hsub
    · intro x hx
      exact hlt x (hsub.mem hx)

theorem deferredInv_reachable {s : DeferredState} (h : DeferredReachable s) :
    DeferredInv s := by
  induction h with
  | refl => exact deferredInv_init
  | tail _ hstep ih => exact deferredInv_step ih hstep

/-- C5: in every reachable compiler state, every live request sits in exactly
one of the pending queue, the conclude list and the currently-compiling slot,
and only once there: the concatenation of the three holders has no duplicate. -/
theorem request_single_location (s : DeferredState) (h : DeferredReachable s) :
    (liveReqs s).Nodup :=
  (deferredInv_reachable h).1

theorem request_single_location_witness :
    (liveReqs ⟨[0], [], none, 1⟩).Nodup :=
  request_single_location ⟨[0], [], none, 1⟩
    (Relation.ReflTransGen.tail Relation.ReflTransGen.refl
      (DeferredStep.enqueue initialDeferred))

/-- C9: the queue is LIFO. Any step that starts a compile (the `mat_compiling`
slot goes from empty to `some r`) removes exactly the queue's tail element
(`BLI_poptail`), and since `drw_deferred_shader_add` appends at the tail
(`BLI_addtail`), the request popped right after an enqueue is the request
that was enqueued most recently. -/
theorem worker_pops_most_recent :
    (∀ s s' : DeferredState, ∀ r, DeferredStep s s' → s.compiling = none →
        s'.compiling = some r → s.queue = s'.queue ++ [r]) ∧
    (∀ s s' : DeferredState, ∀ r,
        DeferredStep ⟨s.queue ++ [r], s.conclude, none, s.nextId⟩ s' →
        ∀ x, s'.compiling = some x → x = r) := by
  have hpop : ∀ s s' : DeferredState, ∀ r, DeferredStep s s' → s.compiling = none →
      s'.compiling = some r → s.queue = s'.queue ++ [r] := by
    intro s s' r hstep hc hc'
    cases hstep with
    | enqueue => rw [hc] at hc'; cases hc'
    | pop r0 q hq hc0 =>
      obtain rfl : r0 = r := by simpa using hc'
      simpa using hq
    | finishConclude r0 hc0 => rw [hc0] at hc; cases hc
    | finishDiscard r0 hc0 => rw [hc0] at hc; cases hc
    | removeUnlink r0 hr => rw [hc] at hc'; cases hc'
    | concludePop r0 l hl => rw [hc] at hc'; cases hc'
  refine ⟨hpop, ?_⟩
  intro s s' r hstep x hx
  have hq := hpop _ _ x hstep rfl hx
  have hconcat : s.queue.concat r = s'.queue.concat x := by
    simpa [List.concat_eq_append] using hq
  exact (List.concat_inj.mp hconcat).2.symm

theorem worker_pops_most_recent_witness :
    (⟨[5], [], none, 6⟩ : DeferredState).queue = (⟨[], [], some 5, 6⟩ : DeferredState).queue ++ [5] :=
  worker_pops_most_recent.1 ⟨[5], [], none, 6⟩ ⟨[], [], some 5, 6⟩ 5
    (DeferredStep.pop ⟨[5], [], none, 6⟩ 5 [] rfl rfl) rfl rfl

/-! ## Compiler instances and context ownership (C6)

`drw_deferred_shader_add` allocates a fresh `DRWShaderCompiler` on every
call. When the session's job already carries one (`WM_jobs_customdata_get`),
the old queue is moved over and the rendering context is handed over
(`old_comp->own_context = false; comp->own_context = job_own_context`)
instead of a second context being created; otherwise a context is created
lazily, or the main context is borrowed (never owned) under the
main-context workaround. `WM_jobs_customdata_set` repoints the job at the
new compiler. `drw_deferred_shader_compilation_free` destroys the context
iff `own_context` is set. Contexts are identified by allocation order, with
id 0 standing for the main `DST.gl_context`. -/

/-- One `DRWShaderCompiler` instance: its `gl_context` (`none` is a NULL
pointer) and its `own_context` flag. -/
structure CompInst where
  ctx : Option Nat
  own : Bool
deriving DecidableEq

/-- Session state: the live (not yet freed) compiler instances keyed by
creation order, the job's current customdata, the log of destroyed contexts,
and allocation counters (fresh dedicated contexts start at 1). -/
structure JobState where
  insts : List (Nat × CompInst)
  customdata : Option Nat
  destroyed : List Nat
  nextInst : Nat
  nextCtx : Nat
deriving DecidableEq

def initialJob : JobState := ⟨[], none, [], 0, 1⟩

/-- Look an instance up by its id. -/
def findInst : List (Nat × CompInst) → Nat → Option CompInst
  | [], _ => none
  | p :: rest, j => if p.1 = j then some p.2 else findInst rest j

/-- The compiler instance the job currently points at
(`WM_jobs_customdata_get`). -/
def lookupCustom (s : JobState) : Option (Nat × CompInst) :=
  match s.customdata with
  | none => none
  | some j =>
    match findInst s.insts j with
    | none => none
    | some o => some (j, o)

/-- The `comp->gl_context == NULL` branch of `drw_deferred_shader_add`:
create a dedicated context (owned iff the job owns its context, i.e. the
main-context workaround is off) or borrow the main context (never owned). -/
def jobAddNew (s : JobState) (useMain : Bool) : JobState :=
  if useMain then
    { s with insts := s.insts ++ [(s.nextInst, ⟨some 0, false⟩)],
             customdata := some s.nextInst, nextInst := s.nextInst + 1 }
  else
    { s with insts := s.insts ++ [(s.nextInst, ⟨some s.nextCtx, true⟩)],
             customdata := some s.nextInst, nextInst := s.nextInst + 1,
             nextCtx := s.nextCtx + 1 }

/-- Embedding of the instance-management part of `drw_deferred_shader_add`:
when the job already carries a compiler owning a context, the context is
transferred (old ownership flag cleared, no new context allocated);
otherwise a context is created lazily. -/
def jobAdd (s : JobState) (useMain : Bool) : JobState :=
  match lookupCustom s with
  | some (j, o) =>
    match o.ctx with
    | some c =>
      let updated := s.insts.map fun p => if p.1 = j then (p.1, ⟨p.2.ctx, false⟩) else p
      { s with
          insts := updated ++ [(s.nextInst, ⟨some c, !useMain⟩)],
          customdata := some s.nextInst,
          nextInst := s.nextInst + 1 }
    | none => jobAddNew s useMain
  | none => jobAddNew s useMain

/-- Embedding of `drw_deferred_shader_compilation_free` for instance `i`:
the context is destroyed iff the instance owns it
(`if (comp->own_context) { ... GPU_context_discard ... }`); the instance is
removed and the job's customdata cleared when it pointed at it. -/
def jobFree (s : JobState) (i : Nat) : JobState :=
  match findInst s.insts i with
  | none => s
  | some o =>
    { s with
        insts := s.insts.filter (fun p => p.1 ≠ i),
        customdata := if s.customdata = some i then none else s.customdata,
        destroyed := s.destroyed ++ (if o.own then o.ctx.toList else []) }

inductive JobStep : JobState → JobState → Prop where
  | add (s : JobState) (useMain : Bool) : JobStep s (jobAdd s useMain)
  | free (s : JobState) (i : Nat) : JobStep s (jobFree s i)

def JobReachable (s : JobState) : Prop :=
  Relation.ReflTransGen JobStep initialJob s

/-- Number of live instances whose `own_context` flag is set. -/
def ownersCount (s : JobState) : Nat :=
  (s.insts.filter fun p => p.2.own).length

/-- Inductive invariant: instance ids are unique and bounded, every owning
instance is the job's current customdata, the customdata points at a live
instance, and every live instance has a (non-NULL) context. -/
def JobInv (s : JobState) : Prop :=
  (s.insts.map Prod.fst).Nodup ∧
  (∀ p ∈ s.insts, p.1 < s.nextInst) ∧
  (∀ p ∈ s.insts, p.2.own = true → s.customdata = some p.1) ∧
  (∀ j, s.customdata = some j → findInst s.insts j ≠ none) ∧
  (∀ p ∈ s.insts, p.2.ctx ≠ none)

theorem findInst_mem {l : List (Nat × CompInst)} {j : Nat} {o : CompInst}
    (h : findInst l j = some o) : (j, o) ∈ l := by
  induction l with
  | nil => exact absurd h (by simp [findInst])
  | cons p rest ih =>
    rw [findInst] at h
    by_cases hp : p.1 = j
    · rw [if_pos hp] at h
      obtain rfl := Option.some_inj.mp h
      cases p with
      | mk a b =>
        cases hp
        exact List.mem_cons_self _ _
    · rw [if_neg hp] at h
      exact List.mem_cons_of_mem p (ih h)

theorem findInst_append_right {l1 l2 : List (Nat × CompInst)} {j : Nat}
    (h : findInst l1 j = none) : findInst (l1 ++ l2) j = findInst l2 j := by
  induction l1 with
  | nil => simp
  | cons p rest ih =>
    rw [findInst] at h
    by_cases hp : p.1 = j
    · rw [if_pos hp] at h; cases h
    · rw [if_neg hp] at h
      rw [List.cons_append, findInst, if_neg hp]
      exact ih h

theorem findInst_none_of_not_mem {l : List (Nat × CompInst)} {j : Nat}
    (h : j ∉ l.map Prod.fst) : findInst l j = none := by
  induction l with
  | nil => rfl
  | cons p rest ih =>
    rw [List.map_cons, List.mem_cons] at h
    push_neg at h
    rw [findInst, if_neg (fun hc => h.1 hc.symm)]
    exact ih h.2

theorem owners_le_one {l : List (Nat × CompInst)} (hnd : (l.map Prod.fst).Nodup)
    {j : Nat} (hj : ∀ p ∈ l, p.2.own = true → p.1 = j) :
    (l.filter fun p => p.2.own).length ≤ 1 := by
  induction l with
  | nil => simp
  | cons a rest ih =>
    rw [List.map_cons, List.nodup_cons] at hnd
    rw [List.filter_cons]
    by_cases ha : a.2.own = true
    · rw [if_pos (by simpa using ha)]
      have hrest : rest.filter (fun p => p.2.own) = [] := by
        rw [List.filter_eq_nil]
        intro p hp hpo
        have h1 : p.1 = j := hj p (List.mem_cons_of_mem a hp) (by simpa using hpo)
        have h2 : a.1 = j := hj a (List.mem_cons_self a rest) ha
        exact hnd.1 (by rw [h2, ← h1]; exact List.mem_map_of_mem Prod.fst hp)
      simp [hrest]
    · rw [if_neg (by simpa using ha)]
      exact ih hnd.2 fun p hp => hj p (List.mem_cons_of_mem a hp)

theorem findInst_ne_none_iff {l : List (Nat × CompInst)} {j : Nat} :
    findInst l j ≠ none ↔ j ∈ l.map Prod.fst := by
  induction l with
  | nil => simp [findInst]
  | cons p rest ih =>
    rw [findInst, List.map_cons, List.mem_cons]
    by_cases hp : p.1 = j
    · rw [if_pos hp]
      simp [hp]
    · rw [if_neg hp]
      rw [ih]
      constructor
      · intro h; exact Or.inr h
      · rintro (h | h)
        · exact absurd h.symm hp
        · exact h

theorem mem_append_single {p x : Nat × CompInst} {l : List (Nat × CompInst)} :
    p ∈ l ++ [x] ↔ p ∈ l ∨ p = x := by
  rw [List.mem_append, List.mem_singleton]

theorem jobAppend_inv {s : JobState} (hinv : JobInv s)
    (hnoown : ∀ p ∈ s.insts, p.2.own = false) (nc : Option Nat) (nown : Bool)
    (k : Nat) (hnc : nc ≠ none) :
    JobInv ⟨s.insts ++ [(s.nextInst, ⟨nc, nown⟩)], some s.nextInst,
      s.destroyed, s.nextInst + 1, k⟩ := by
  rcases hinv with ⟨h1, h2, _h3, _h4, h5⟩
  have hfresh : s.nextInst ∉ s.insts.map Prod.fst := by
    intro hmem
    rcases List.mem_map.mp hmem with ⟨p, hp, hfst⟩
    exact absurd (hfst ▸ h2 p hp) (lt_irrefl _)
  have hnone : findInst s.insts s.nextInst = none := findInst_none_of_not_mem hfresh
  refine ⟨?_, ?_, ?_, ?_, ?_⟩
  · rw [List.map_append, List.nodup_append]
    refine ⟨h1, by simp, ?_⟩
    intro a ha hb
    simp only [List.map_cons, List.map_nil, List.mem_singleton] at hb
    subst hb
    exact hfresh ha
  · intro p hp
    rcases mem_append_single.mp hp with hp | rfl
    · exact lt_trans (h2 p hp) (by simp)
    · simp
  · intro p hp
    rcases mem_append_single.mp hp with hp | rfl
    · intro hown
      exact absurd hown (by simp [hnoown p hp])
    · intro _
      rfl
  · intro j hj
    obtain rfl : j = s.nextInst := by simpa using hj.symm
    rw [findInst_append_right hnone]
    simp [findInst]
  · intro p hp
    rcases mem_append_single.mp hp with hp | rfl
    · exact h5 p hp
    · exact hnc

theorem jobAddNew_inv {s : JobState} (hinv : JobInv s)
    (hnoown : ∀ p ∈ s.insts, p.2.own = false) (useMain : Bool) :
    JobInv (jobAddNew s useMain) := by
  unfold jobAddNew
  by_cases hm : useMain = true
  · rw [if_pos hm]
    exact jobAppend_inv hinv hnoown (some 0) false s.nextCtx (by simp)
  · rw [if_neg hm]
    exact jobAppend_inv hinv hnoown (some s.nextCtx) true (s.nextCtx + 1) (by simp)

theorem lookupCustom_eq_some {s : JobState} {j : Nat} {o : CompInst}
    (h : lookupCustom s = some (j, o)) :
    s.customdata = some j ∧ findInst s.insts j = some o := by
  unfold lookupCustom at h
  cases hcd : s.customdata with
  | none => rw [hcd] at h; simp at h
  | some j0 =>
    rw [hcd] at h
    dsimp only at h
    cases hfi : findInst s.insts j0 with
    | none => rw [hfi] at h; simp at h
    | some o0 =>
      rw [hfi] at h
      dsimp only at h
      have hpair := Option.some_inj.mp h
      have hj : j0 = j := congrArg Prod.fst hpair
      have ho : o0 = o := congrArg Prod.snd hpair
      cases hj
      cases ho
      exact ⟨rfl, hfi⟩

theorem lookupCustom_eq_none {s : JobState}
    (hinv4 : ∀ j, s.customdata = some j → findInst s.insts j ≠ none)
    (h : lookupCustom s = none) : s.customdata = none := by
  unfold lookupCustom at h
  cases hcd : s.customdata with
  | none => rfl
  | some j0 =>
    rw [hcd] at h
    dsimp only at h
    cases hfi : findInst s.insts j0 with
    | none => exact absurd hfi (hinv4 j0 hcd)
    | some o0 => rw [hfi] at h; simp at h

theorem jobMerge_inv {s : JobState} (hinv : JobInv s) {j : Nat} {o : CompInst}
    (hcd : s.customdata = some j) {c : Nat} (hctx : o.ctx = some c) (useMain : Bool) :
    JobInv ⟨(s.insts.map fun p =>
        if p.1 = j then (p.1, (⟨p.2.ctx, false⟩ : CompInst)) else p) ++
        [(s.nextInst, ⟨some c, !useMain⟩)],
      some s.nextInst, s.destroyed, s.nextInst + 1, s.nextCtx⟩ := by
  rcases hinv with ⟨h1, h2, h3, h4, h5⟩
  have hkeys : ((s.insts.map fun p =>
      if p.1 = j then (p.1, (⟨p.2.ctx, false⟩ : CompInst)) else p).map Prod.fst)
      = s.insts.map Prod.fst := by
    rw [List.map_map]
    apply List.map_congr_left
    intro p _
    by_cases hp : p.1 = j
    · simp [hp]
    · simp [hp]
  have hfresh : s.nextInst ∉ s.insts.map Prod.fst := by
    intro hmem
    rcases List.mem_map.mp hmem with ⟨p, hp, hfst⟩
    exact absurd (hfst ▸ h2 p hp) (lt_irrefl _)
  have hupdmem : ∀ p' ∈ (s.insts.map fun p =>
      if p.1 = j then (p.1, (⟨p.2.ctx, false⟩ : CompInst)) else p),
      ∃ p ∈ s.insts, p' = if p.1 = j then (p.1, (⟨p.2.ctx, false⟩ : CompInst)) else p := by
    intro p' hp'
    rcases List.mem_map.mp hp' with ⟨p, hp, heq⟩
    exact ⟨p, hp, heq.symm⟩
  unfold JobInv
  dsimp only
  refine ⟨?_, ?_, ?_, ?_, ?_⟩
  · rw [List.map_append, hkeys, List.nodup_append]
    refine ⟨h1, by simp, ?_⟩
    intro a ha hb
    simp only [List.map_cons, List.map_nil, List.mem_singleton] at hb
    subst hb
    exact hfresh ha
  · intro p' hp'
    rcases mem_append_single.mp hp' with hp' | rfl
    · rcases hupdmem p' hp' with ⟨p, hp, rfl⟩
      by_cases hpj : p.1 = j
      · rw [if_pos hpj]
        exact lt_trans (h2 p hp) (by simp)
      · rw [if_neg hpj]
        exact lt_trans (h2 p hp) (by simp)
    · simp
  · intro p' hp'
    rcases mem_append_single.mp hp' with hp' | rfl
    · rcases hupdmem p' hp' with ⟨p, hp, rfl⟩
      by_cases hpj : p.1 = j
      · rw [if_pos hpj]
        intro hown
        exact absurd hown (by simp)
      · rw [if_neg hpj]
        intro hown
        have hcd2 := h3 p hp hown
        rw [hcd] at hcd2
        exact absurd (Option.some_inj.mp hcd2).symm hpj
    · intro _
      rfl
  · intro k hk
    obtain rfl : k = s.nextInst := by simpa using hk.symm
    have hnone2 : findInst (s.insts.map fun p =>
        if p.1 = j then (p.1, (⟨p.2.ctx, false⟩ : CompInst)) else p) s.nextInst
        = none := by
      apply findInst_none_of_not_mem
      rw [hkeys]
      exact hfresh
    rw [findInst_append_right hnone2]
    simp [findInst]
  · intro p' hp'
    rcases mem_append_single.mp hp' with hp' | rfl
    · rcases hupdmem p' hp' with ⟨p, hp, rfl⟩
      by_cases hpj : p.1 = j
      · rw [if_pos hpj]
        exact h5 p hp
      · rw [if_neg hpj]
        exact h5 p hp
    · simp

theorem jobFreeSome_inv {s : JobState} (hinv : JobInv s) {i : Nat} {o : CompInst}
    (hfi : findInst s.insts i = some o) :
    JobInv ⟨s.insts.filter (fun p => p.1 ≠ i),
      if s.customdata = some i then none else s.customdata,
      s.destroyed ++ (if o.own then o.ctx.toList else []),
      s.nextInst, s.nextCtx⟩ := by
  rcases hinv with ⟨h1, h2, h3, h4, h5⟩
  have hsubkeys : List.Sublist ((s.insts.filter fun p => p.1 ≠ i).map Prod.fst)
      (s.insts.map Prod.fst) :=
    (List.filter_sublist s.insts).map Prod.fst
  unfold JobInv
  dsimp only
  refine ⟨h1.sublist hsubkeys, ?_, ?_, ?_, ?_⟩
  · intro p hp
    exact h2 p ((List.filter_sublist s.insts).mem hp)
  · intro p hp hown
    have hpmem := (List.filter_sublist s.insts).mem hp
    have hpne : p.1 ≠ i := by
      have := List.of_mem_filter hp
      simpa using this
    have hcd := h3 p hpmem hown
    by_cases hci : s.customdata = some i
    · rw [hci] at hcd
      exact absurd (Option.some_inj.mp hcd).symm hpne
    · rw [if_neg hci]
      exact hcd
  · intro k hk
    by_cases hci : s.customdata = some i
    · rw [if_pos hci] at hk
      cases hk
    · rw [if_neg hci] at hk
      have hkne : k ≠ i := by
        intro hki
        subst hki
        exact hci hk
      have hold := h4 k hk
      rw [findInst_ne_none_iff] at hold ⊢
      rcases List.mem_map.mp hold with ⟨p, hp, hfst⟩
      apply List.mem_map.mpr
      refine ⟨p, ?_, hfst⟩
      apply List.mem_filter.mpr
      refine ⟨hp, ?_⟩
      simp only [decide_eq_true_eq]
      rw [hfst]
      exact hkne
  · intro p hp
    exact h5 p ((List.filter_sublist s.insts).mem hp)

theorem jobInv_step {s s' : JobState} (hinv : JobInv s) (hstep : JobStep s s') :
    JobInv s' := by
  cases hstep with
  | add useMain =>
    unfold jobAdd
    cases hlc : lookupCustom s with
    | none =>
      have hcdnone : s.customdata = none := lookupCustom_eq_none hinv.2.2.2.1 hlc
      have hnoown : ∀ p ∈ s.insts, p.2.own = false := by
        intro p hp
        cases hown : p.2.own with
        | false => rfl
        | true =>
          have hcontra := hinv.2.2.1 p hp hown
          rw [hcdnone] at hcontra
          cases hcontra
      exact jobAddNew_inv hinv hnoown useMain
    | some v =>
      obtain ⟨j, o⟩ := v
      rcases lookupCustom_eq_some hlc with ⟨hcd, hfi⟩
      cases hctx : o.ctx with
      | none =>
        exact absurd hctx (by simpa using hinv.2.2.2.2 (j, o) (findInst_mem hfi))
      | some c =>
        dsimp only
        rw [hctx]
        exact jobMerge_inv hinv hcd hctx useMain
  | free i =>
    unfold jobFree
    cases hfi : findInst s.insts i with
    | none => exact hinv
    | some o => exact jobFreeSome_inv hinv hfi

theorem jobInv_reachable {s : JobState} (h : JobReachable s) : JobInv s := by
  induction h with
  | refl =>
    refine ⟨?_, ?_, ?_, ?_, ?_⟩ <;> simp [initialJob, findInst]
  | tail _ hstep ih => exact jobInv_step ih hstep

/-- C6: at most one live compiler instance owns the dedicated rendering
context at any reachable moment; when a new request arrives while a previous
instance with a context exists, that instance's queue host is merged (its
ownership flag is cleared, the new instance holds the same context, and no
new context id is allocated); and at teardown an instance destroys its
context iff it owns it (a non-owning instance skips destruction). -/
theorem compiler_context_single_owner :
    (∀ s : JobState, JobReachable s → ownersCount s ≤ 1) ∧
    (∀ (s : JobState) (useMain : Bool) (j : Nat) (o : CompInst) (c : Nat),
        lookupCustom s = some (j, o) → o.ctx = some c →
          (jobAdd s useMain).nextCtx = s.nextCtx ∧
          (jobAdd s useMain).insts =
            (s.insts.map fun p =>
              if p.1 = j then (p.1, (⟨p.2.ctx, false⟩ : CompInst)) else p) ++
              [(s.nextInst, ⟨some c, !useMain⟩)]) ∧
    (∀ (s : JobState) (i : Nat) (o : CompInst), findInst s.insts i = some o →
        (jobFree s i).destroyed =
          s.destroyed ++ (if o.own then o.ctx.toList else [])) := by
  refine ⟨?_, ?_, ?_⟩
  · intro s hre
    rcases jobInv_reachable hre with ⟨h1, _h2, h3, _h4, _h5⟩
    cases hc : s.customdata with
    | some j =>
      apply owners_le_one h1
      intro p hp hpo
      have := h3 p hp hpo
      rw [hc] at this
      exact (Option.some_inj.mp this).symm
    | none =>
      have hempty : s.insts.filter (fun p => p.2.own) = [] := by
        rw [List.filter_eq_nil]
        intro p hp hpo
        have := h3 p hp (by simpa using hpo)
        rw [hc] at this
        cases this
      simp [ownersCount, hempty]
  · intro s useMain j o c hlc hctx
    unfold jobAdd
    rw [hlc]
    dsimp only
    rw [hctx]
    exact ⟨rfl, rfl⟩
  · intro s i o hfi
    unfold jobFree
    rw [hfi]

theorem compiler_context_single_owner_witness : ownersCount initialJob ≤ 1 :=
  compiler_context_single_owner.1 initialJob Relation.ReflTransGen.refl

/-! ## `DRW_deferred_shader_remove` versus the worker loop (C1)

The worker loop holds the spin list lock for each list manipulation and the
compilation mutex for the whole `GPU_material_compile` call (acquired at line
133 while still under the spin lock, released at line 145 after the GPU call
and flush). `DRW_deferred_shader_remove` holds the spin lock from line 293 to
line 307; inside that critical section it unlinks the unit's request from the
queue and, when the unit is the one currently compiling, blocks on the
compilation mutex (lines 303-304) until the worker's compile has finished.

Each atomic step below is one spin-protected critical section of the C code
(or the GPU-call interval). Consecutive statements of one thread whose
intermediate states no other thread can observe are merged into one step:
the worker's pop + mutex acquisition + spin release (lines 112-134, all
before any shared write becomes visible to a spin-synchronized reader), and
the GPU call return + flush + mutex release (lines 137-145). The remover's
critical section stays split, because it spans its wait on the compilation
mutex: `spin` stays held by the remover across `rWait`/`rRel`. `mutex` is
held by the worker exactly while `GPU_material_compile` runs. `gpuCalls`
records, in order, the requests whose GPU compile call has returned. -/

/-- Worker program counter:
* `wTop`: at the loop head, holding nothing (line 111);
* `wCompile`: `GPU_material_compile` executing, compilation mutex held
  (lines 137-144);
* `wFinish`: GPU call returned and mutex released, `mat_compiling` still
  set, about to re-acquire the spin lock and conclude (lines 146-147);
* `wExit`: the loop has exited (stop request or empty queue). -/
inductive WorkerPC where
  | wTop
  | wCompile
  | wFinish
  | wExit
deriving DecidableEq

/-- Remover program counter:
* `rStart`: `DRW_deferred_shader_remove(u)` about to take the spin lock;
* `rWait`: holding the spin lock, the unit was the one compiling, blocked
  on the compilation mutex (line 303);
* `rRel`: holding the spin lock, about to release it and return (line 307);
* `rDone`: the remove call has returned. -/
inductive RemoverPC where
  | rStart
  | rWait
  | rRel
  | rDone
deriving DecidableEq

/-- Shared state of the worker loop and one `DRW_deferred_shader_remove(u)`
call racing against it. `spin = true` means the remover holds the list lock
(the worker's spin critical sections are whole atomic steps); `mutex = true`
means the worker holds the compilation mutex. -/
structure RemState where
  queue : List Nat
  conclude : List Nat
  compiling : Option Nat
  spin : Bool
  mutex : Bool
  gpuCalls : List Nat
  wpc : WorkerPC
  rpc : RemoverPC
  found : Bool
  waited : Bool
deriving DecidableEq

/-- One interleaved step of the worker or the remover for unit `u`. -/
inductive RemStep (u : Nat) : RemState → RemState → Prop where
  /-- Lines 112-127 ending in `break`: lock the spin lock, see a stop request
  or an empty queue, unlock, leave the loop. -/
  | wExitLoop (s : RemState) (hw : s.wpc = .wTop) (hs : s.spin = false) :
      RemStep u s { s with wpc := .wExit }
  /-- Lines 112-137: lock the spin lock, pop the queue tail into
  `mat_compiling`, acquire the compilation mutex, unlock the spin lock and
  enter `GPU_material_compile`. -/
  | wStartCompile (s : RemState) (r : Nat) (q : List Nat) (hw : s.wpc = .wTop)
      (hs : s.spin = false) (hm : s.mutex = false) (hq : s.queue = q ++ [r]) :
      RemStep u s
        { s with queue := q, compiling := some r, mutex := true, wpc := .wCompile }
  /-- Lines 137-145: the GPU compile call returns, progress is updated, the
  command stream flushed, and the compilation mutex released. -/
  | wFinishCompile (s : RemState) (r : Nat) (hw : s.wpc = .wCompile)
      (hc : s.compiling = some r) :
      RemStep u s
        { s with gpuCalls := s.gpuCalls ++ [r], mutex := false, wpc := .wFinish }
  /-- Lines 147-155, status still `GPU_MAT_QUEUED`: lock the spin lock, move
  the finished request to the conclude list, clear `mat_compiling`, unlock. -/
  | wConcludeKeep (s : RemState) (r : Nat) (hw : s.wpc = .wFinish)
      (hs : s.spin = false) (hc : s.compiling = some r) :
      RemStep u s
        { s with conclude := s.conclude ++ [r], compiling := none, wpc := .wTop }
  /-- Lines 147-155, status no longer queued: the request is freed instead. -/
  | wConcludeFree (s : RemState) (hw : s.wpc = .wFinish) (hs : s.spin = false) :
      RemStep u s { s with compiling := none, wpc := .wTop }
  /-- Lines 293-302, unit mid-compile: lock the spin lock, unlink the unit's
  request if queued, see `mat_compiling->mat == mat`, start blocking on the
  compilation mutex. The spin lock stays held. -/
  | rFindWait (s : RemState) (hr : s.rpc = .rStart) (hs : s.spin = false)
      (hc : s.compiling = some u) :
      RemStep u s
        { s with queue := s.queue.erase u, found := s.queue.contains u, waited := true, spin := true, rpc := .rWait }
  /-- Lines 293-302, unit not compiling: lock the spin lock, unlink the
  unit's request if queued, skip the wait. -/
  | rFindNoWait (s : RemState) (hr : s.rpc = .rStart) (hs : s.spin = false)
      (hc : s.compiling ≠ some u) :
      RemStep u s
        { s with queue := s.queue.erase u, found := s.queue.contains u, spin := true, rpc := .rRel }
  /-- Lines 303-304: the compilation mutex becomes free (the worker's GPU
  call returned), the remover acquires and immediately releases it. -/
  | rMutexGrab (s : RemState) (hr : s.rpc = .rWait) (hm : s.mutex = false) :
      RemStep u s { s with rpc := .rRel }
  /-- Lines 307-311: release the spin lock, free the unlinked request,
  return to the caller. -/
  | rReturn (s : RemState) (hr : s.rpc = .rRel) :
      RemStep u s { s with spin := false, rpc := .rDone }

/-- Starting configuration: the worker at its loop head, the remover about
to execute `DRW_deferred_shader_remove(u)`, both locks free, nothing
compiling, no GPU call issued yet, and an arbitrary duplicate-free backlog
(each unit has at most one live request, so `u` occurs at most once and,
while its request sits in the queue, it has never been compiled). -/
def RemInit (u : Nat) (s : RemState) : Prop :=
  s.compiling = none ∧ s.spin = false ∧ s.mutex = false ∧ s.gpuCalls = [] ∧
  s.wpc = .wTop ∧ s.rpc = .rStart ∧ s.found = false ∧ s.waited = false ∧
  s.queue.Nodup

def RemReachable (u : Nat) (s0 s : RemState) : Prop :=
  Relation.ReflTransGen (RemStep u) s0 s

/-- Inductive invariant of the interleaving. -/
def RemInv (u : Nat) (s : RemState) : Prop :=
  (s.mutex = true ↔ s.wpc = .wCompile) ∧
  (s.spin = true ↔ (s.rpc = .rWait ∨ s.rpc = .rRel)) ∧
  (∀ r, s.compiling = some r → (s.wpc = .wCompile ∨ s.wpc = .wFinish)) ∧
  (s.wpc = .wFinish → ∀ r, s.compiling = some r → r ∈ s.gpuCalls) ∧
  s.queue.Nodup ∧
  (∀ r, s.compiling = some r → r ∉ s.queue) ∧
  (u ∈ s.queue → u ∉ s.gpuCalls) ∧
  (s.rpc = .rStart → s.found = false ∧ s.waited = false) ∧
  (s.rpc = .rWait →
    s.compiling = some u ∧ s.waited = true ∧ s.found = false ∧ u ∉ s.queue) ∧
  ((s.rpc = .rRel ∨ s.rpc = .rDone) → u ∉ s.queue) ∧
  ((s.rpc = .rRel ∨ s.rpc = .rDone) → s.waited = false → s.compiling ≠ some u) ∧
  ((s.rpc = .rRel ∨ s.rpc = .rDone) → s.waited = true →
    u ∈ s.gpuCalls ∧ (s.compiling = some u → s.wpc = .wFinish)) ∧
  ((s.rpc = .rRel ∨ s.rpc = .rDone) → s.found = true →
    s.waited = false ∧ u ∉ s.gpuCalls)

theorem remInv_init {u : Nat} {s : RemState} (h : RemInit u s) : RemInv u s := by
  obtain ⟨h1, h2, h3, h4, h5, h6, h7, h8, h9⟩ := h
  refine ⟨?_, ?_, ?_, ?_, h9, ?_, ?_, ?_, ?_, ?_, ?_, ?_, ?_⟩
  · rw [h3, h5]; simp
  · rw [h2, h6]; simp
  · intro r hr; rw [h1] at hr; cases hr
  · rw [h5]; intro h; cases h
  · intro r hr; rw [h1] at hr; cases hr
  · intro _; rw [h4]; simp
  · intro _; exact ⟨h7, h8⟩
  · rw [h6]; intro h; cases h
  · rw [h6]; rintro (h | h) <;> cases h
  · rw [h6]; rintro (h | h) <;> cases h
  · rw [h6]; rintro (h | h) <;> cases h
  · rw [h6]; rintro (h | h) <;> cases h

theorem contains_eq_false_of_not_mem {l : List Nat} {a : Nat} (h : a ∉ l) :
    l.contains a = false := by
  cases hc : l.contains a with
  | false => rfl
  | true => exact absurd (List.mem_of_elem_eq_true hc) h

theorem remInv_step {u : Nat} {s s' : RemState} (hinv : RemInv u s)
    (hstep : RemStep u s s') : RemInv u s' := by
  obtain ⟨i1, i2, i3, i4, i5, i6, i7, i8, i9, i10, i11, i12, i13⟩ := hinv
  cases hstep with
  | wExitLoop hw hs =>
    have hmx : s.mutex = false := by
      cases hmx : s.mutex with
      | false => rfl
      | true =>
        have hcontra := i1.mp hmx
        rw [hw] at hcontra
        cases hcontra
    have hcn : s.compiling = none := by
      cases hcn : s.compiling with
      | none => rfl
      | some r =>
        rcases i3 r hcn with h | h <;> rw [hw] at h <;> cases h
    refine ⟨by simp [hmx], i2, ?_, ?_, i5, i6, i7, i8, i9, i10, i11, ?_, i13⟩
    · intro r hr
      rw [hcn] at hr
      cases hr
    · intro h
      cases h
    · intro h hw2
      refine ⟨(i12 h hw2).1, ?_⟩
      intro hcu
      rw [hcn] at hcu
      cases hcu
  | wStartCompile r q hw hs hm hq =>
    have hnd : (q ++ [r]).Nodup := by rw [← hq]; exact i5
    have hrpc : ¬(s.rpc = .rWait ∨ s.rpc = .rRel) := by
      intro h
      have hcontra := i2.mpr h
      rw [hs] at hcontra
      cases hcontra
    have hrq : r ∉ q := by
      intro hin
      exact (List.nodup_append.mp hnd).2.2 hin (List.mem_singleton.mpr rfl)
    have hmemq : ∀ x, x ∈ q → x ∈ s.queue := by
      intro x hx
      rw [hq]
      exact List.mem_append_left _ hx
    refine ⟨by simp, i2, ?_, ?_, (List.nodup_append.mp hnd).1, ?_, ?_, i8, ?_, ?_, ?_, ?_, i13⟩
    · intro r' _
      exact Or.inl rfl
    · intro h
      cases h
    · intro r' hr'
      obtain rfl : r = r' := Option.some_inj.mp hr'
      exact hrq
    · intro hu
      exact i7 (hmemq u hu)
    · intro h
      exact absurd (Or.inl h) hrpc
    · rintro (h | h)
      · exact absurd (Or.inr h) hrpc
      · intro hu
        have hnot := i10 (Or.inr h)
        rw [hq] at hnot
        exact hnot (List.mem_append_left _ hu)
    · intro h hw2 hcu
      obtain rfl : r = u := Option.some_inj.mp hcu
      have hnot := i10 h
      rw [hq] at hnot
      exact hnot (List.mem_append_right _ (List.mem_singleton.mpr rfl))
    · intro h hw2
      refine ⟨(i12 h hw2).1, ?_⟩
      intro hcu
      obtain rfl : r = u := Option.some_inj.mp hcu
      have hnot := i10 h
      rw [hq] at hnot
      exact absurd (List.mem_append_right _ (List.mem_singleton.mpr rfl)) hnot
  | wFinishCompile r hw hc =>
    refine ⟨by simp, i2, ?_, ?_, i5, i6, ?_, i8, i9, i10, i11, ?_, ?_⟩
    · intro r' _
      exact Or.inr rfl
    · intro _ r' hr'
      rw [hc] at hr'
      obtain rfl : r = r' := Option.some_inj.mp hr'
      simp
    · intro hu
      rw [List.mem_append, List.mem_singleton]
      rintro (hg | rfl)
      · exact i7 hu hg
      · exact i6 u hc hu
    · intro h hw2
      exact ⟨List.mem_append_left _ (i12 h hw2).1, fun _ => rfl⟩
    · intro h hf
      refine ⟨(i13 h hf).1, ?_⟩
      rw [List.mem_append, List.mem_singleton]
      rintro (hg | rfl)
      · exact (i13 h hf).2 hg
      · exact i11 h (i13 h hf).1 hc
  | wConcludeKeep r hw hs hc =>
    have hmx : s.mutex = false := by
      cases hmx : s.mutex with
      | false => rfl
      | true =>
        have hcontra := i1.mp hmx
        rw [hw] at hcontra
        cases hcontra
    have hrpc : ¬(s.rpc = .rWait ∨ s.rpc = .rRel) := by
      intro h
      have hcontra := i2.mpr h
      rw [hs] at hcontra
      cases hcontra
    refine ⟨by simp [hmx], i2, ?_, ?_, i5, ?_, i7, i8, ?_, ?_, ?_, ?_, i13⟩
    · intro r' hr'
      cases hr'
    · intro h
      cases h
    · intro r' hr'
      cases hr'
    · intro h
      exact absurd (Or.inl h) hrpc
    · rintro (h | h)
      · exact absurd (Or.inr h) hrpc
      · exact i10 (Or.inr h)
    · intro h hw2 hcu
      cases hcu
    · intro h hw2
      refine ⟨(i12 h hw2).1, ?_⟩
      intro hcu
      cases hcu
  | wConcludeFree hw hs =>
    have hmx : s.mutex = false := by
      cases hmx : s.mutex with
      | false => rfl
      | true =>
        have hcontra := i1.mp hmx
        rw [hw] at hcontra
        cases hcontra
    have hrpc : ¬(s.rpc = .rWait ∨ s.rpc = .rRel) := by
      intro h
      have hcontra := i2.mpr h
      rw [hs] at hcontra
      cases hcontra
    refine ⟨by simp [hmx], i2, ?_, ?_, i5, ?_, i7, i8, ?_, ?_, ?_, ?_, i13⟩
    · intro r' hr'
      cases hr'
    · intro h
      cases h
    · intro r' hr'
      cases hr'
    · intro h
      exact absurd (Or.inl h) hrpc
    · rintro (h | h)
      · exact absurd (Or.inr h) hrpc
      · exact i10 (Or.inr h)
    · intro h hw2 hcu
      cases hcu
    · intro h hw2
      refine ⟨(i12 h hw2).1, ?_⟩
      intro hcu
      cases hcu
  | rFindWait hr hs hc =>
    have hcont : s.queue.contains u = false :=
      contains_eq_false_of_not_mem (i6 u hc)
    refine ⟨i1, by simp, i3, i4, i5.erase u, ?_, ?_, ?_, ?_, ?_, ?_, ?_, ?_⟩
    · intro r' hr' hmem
      exact i6 r' hr' (List.mem_of_mem_erase hmem)
    · intro hmem
      exact absurd hmem i5.not_mem_erase
    · intro h
      cases h
    · intro _
      exact ⟨hc, rfl, hcont, i5.not_mem_erase⟩
    · rintro (h | h) <;> cases h
    · rintro (h | h) <;> cases h
    · rintro (h | h) <;> cases h
    · rintro (h | h) <;> cases h
  | rFindNoWait hr hs hc =>
    obtain ⟨hfo, hwt⟩ := i8 hr
    refine ⟨i1, by simp, i3, i4, i5.erase u, ?_, ?_, ?_, ?_, ?_, ?_, ?_, ?_⟩
    · intro r' hr' hmem
      exact i6 r' hr' (List.mem_of_mem_erase hmem)
    · intro hmem
      exact absurd hmem i5.not_mem_erase
    · intro h
      cases h
    · intro h
      cases h
    · intro _
      exact i5.not_mem_erase
    · intro _ _
      exact hc
    · intro _ hw2
      rw [hwt] at hw2
      cases hw2
    · intro _ hf
      have humem : u ∈ s.queue := List.mem_of_elem_eq_true hf
      exact ⟨hwt, i7 humem⟩
  | rMutexGrab hr hm =>
    obtain ⟨hcu, hwt, hfo, hnq⟩ := i9 hr
    have hwf : s.wpc = .wFinish := by
      rcases i3 u hcu with h | h
      · have hcontra := i1.mpr h
        rw [hm] at hcontra
        cases hcontra
      · exact h
    have hug : u ∈ s.gpuCalls := i4 hwf u hcu
    have hsp : s.spin = true := i2.mpr (Or.inl hr)
    refine ⟨i1, by simp [hsp], i3, i4, i5, i6, i7, ?_, ?_, ?_, ?_, ?_, ?_⟩
    · intro h
      cases h
    · intro h
      cases h
    · intro _
      exact hnq
    · intro _ hw2
      rw [hwt] at hw2
      cases hw2
    · intro _ _
      exact ⟨hug, fun _ => hwf⟩
    · intro _ hf
      rw [hfo] at hf
      cases hf
  | rReturn hr =>
    refine ⟨i1, by simp, i3, i4, i5, i6, i7, ?_, ?_, ?_, ?_, ?_, ?_⟩
    · intro h
      cases h
    · intro h
      cases h
    · intro _
      exact i10 (Or.inl hr)
    · intro _
      exact i11 (Or.inl hr)
    · intro _
      exact i12 (Or.inl hr)
    · intro _
      exact i13 (Or.inl hr)

theorem remInv_reachable {u : Nat} {s0 s : RemState} (hinit : RemInit u s0)
    (h : RemReachable u s0 s) : RemInv u s := by
  induction h with
  | refl => exact remInv_init hinit
  | tail _ hstep ih => exact remInv_step ih hstep

/-- C1: `DRW_deferred_shader_remove(u)` never returns while a compile using
`u`'s resources is still executing. In every reachable state in which the
remove call has returned: no GPU compile of `u` is in flight (the worker
being inside `GPU_material_compile` with `mat_compiling = u` is impossible),
`u`'s request is no longer in the pending queue; if the request was found
sitting in the queue (pending case) the remover did not block and no GPU
call was ever issued for `u`; and if the unit was the one mid-compile, the
remover blocked on the compilation mutex and that specific compile's GPU
call had already returned. -/
theorem deferred_shader_remove_safe (u : Nat) (s0 s : RemState)
    (hinit : RemInit u s0) (hreach : RemReachable u s0 s)
    (hdone : s.rpc = .rDone) :
    ¬(s.wpc = .wCompile ∧ s.compiling = some u) ∧
    u ∉ s.queue ∧
    (s.found = true → s.waited = false ∧ u ∉ s.gpuCalls) ∧
    (s.waited = true → u ∈ s.gpuCalls) := by
  obtain ⟨i1, i2, i3, i4, i5, i6, i7, i8, i9, i10, i11, i12, i13⟩ :=
    remInv_reachable hinit hreach
  refine ⟨?_, i10 (Or.inr hdone), i13 (Or.inr hdone),
    fun hw => (i12 (Or.inr hdone) hw).1⟩
  rintro ⟨hwc, hcu⟩
  cases hwt : s.waited with
  | false => exact i11 (Or.inr hdone) hwt hcu
  | true =>
    have hfin := (i12 (Or.inr hdone) hwt).2 hcu
    rw [hwc] at hfin
    cases hfin

/-- Concrete run of the remove protocol: unit 7 sits pending in the queue,
the remover unlinks it without blocking and returns. -/
def remScenarioStart : RemState :=
  ⟨[7], [], none, false, false, [], .wTop, .rStart, false, false⟩

def remScenarioMid : RemState :=
  ⟨[], [], none, true, false, [], .wTop, .rRel, true, false⟩

def remScenarioEnd : RemState :=
  ⟨[], [], none, false, false, [], .wTop, .rDone, true, false⟩

theorem deferred_shader_remove_safe_witness :
    ¬(remScenarioEnd.wpc = .wCompile ∧ remScenarioEnd.compiling = some 7) ∧
    7 ∉ remScenarioEnd.queue ∧
    (remScenarioEnd.found = true →
      remScenarioEnd.waited = false ∧ 7 ∉ remScenarioEnd.gpuCalls) ∧
    (remScenarioEnd.waited = true → 7 ∈ remScenarioEnd.gpuCalls) :=
  deferred_shader_remove_safe 7 remScenarioStart remScenarioEnd
    (by refine ⟨rfl, rfl, rfl, rfl, rfl, rfl, rfl, rfl, ?_⟩; decide)
    (Relation.ReflTransGen.tail (Relation.ReflTransGen.tail Relation.ReflTransGen.refl
      (RemStep.rFindNoWait remScenarioStart rfl rfl (by decide)))
      (RemStep.rReturn remScenarioMid rfl))
    rfl

end DrawManagerShader
